import Mathlib

/-!
Shallow embedding of the recurring-job scheduler core of `modktx`:

* `TaskQueue` (src/utils/TaskQueue.ts): a FIFO task queue with a single
  `isProcessing` drain guard.  Tasks are opaque asynchronous closures; we
  identify them by natural numbers and model the event-loop interleaving by
  two events: `add t` (a caller enqueues task `t`) and `finish ok` (the
  promise awaited by the drain loop settles, successfully iff `ok`).
  Ghost fields (`current`, `started`, `finished`, `errLog`) record the
  execution trace that the JS runtime would produce; they are write-only
  observations and are never read by the transition code itself.

* `JobScheduler` (src/jobs/JobScheduler.ts): named jobs armed on periodic
  timers, dispatched either directly (parallel mode) or through the shared
  `TaskQueue` (sequential mode), with a per-name running flag suppressing
  overlap.  JavaScript is single threaded: timer callbacks and promise
  continuations run as discrete, non-preemptible turns, so each turn is one
  atomic step of the machine.  The events are `start`, `stop`, `tick i`
  (timer `i` fires) and `finish id ok` (the in-flight `execute()` call with
  id `id` settles).
-/

namespace Modktx

/-! ## Interval parsing (`JobScheduler.convertIntervalToMs`) -/

/-- Leading decimal digits of a character list; `none` when there is no digit
(JavaScript `parseInt` returns `NaN` in that case). -/
def parseDigits (cs : List Char) : Option Nat :=
  let ds := cs.takeWhile Char.isDigit
  if ds.isEmpty then none
  else some (ds.foldl (fun acc c => acc * 10 + (c.toNat - 48)) 0)

/-- JavaScript `parseInt(s, 10)`: skip leading whitespace, optional sign,
then leading digits; `NaN` (modelled as `none`) if no digit follows. -/
def jsParseInt (s : String) : Option Int :=
  let cs := s.toList.dropWhile (fun c => c = ' ' ∨ c = '\t' ∨ c = '\n' ∨ c = '\r')
  match cs with
  | '-' :: rest => (parseDigits rest).map (fun n => -(n : Int))
  | '+' :: rest => (parseDigits rest).map (fun n => (n : Int))
  | rest => (parseDigits rest).map (fun n => (n : Int))

/-- JS `interval.slice(-1)`: the last character of the string, as a string
(empty for the empty string). -/
def intervalUnit (s : String) : String :=
  match s.toList.getLast? with
  | some c => String.singleton c
  | none => ""

/-- JS `interval.slice(0, -1)`: the string without its last character. -/
def intervalMagnitude (s : String) : String :=
  String.mk s.toList.dropLast

/-- Model of `JobScheduler.convertIntervalToMs`.  The returned number may be `NaN`
(a `NaN` magnitude propagates through the multiplication), which we model
as `none`; an unknown unit character throws, modelled as `Except.error`. -/
def convertIntervalToMs (interval : String) : Except String (Option Int) :=
  let unit := intervalUnit interval
  let value := jsParseInt (intervalMagnitude interval)
  if unit = "m" then Except.ok (value.map (fun v => v * 60 * 1000))
  else if unit = "h" then Except.ok (value.map (fun v => v * 60 * 60 * 1000))
  else if unit = "d" then Except.ok (value.map (fun v => v * 24 * 60 * 60 * 1000))
  else Except.error ("Unknown interval unit: " ++ unit)

/-- The unit character of the interval token is one of the three recognized
ones (`'m'`, `'h'`, `'d'`). -/
def recognizedUnit (s : String) : Prop :=
  intervalUnit s = "m" ∨ intervalUnit s = "h" ∨ intervalUnit s = "d"

instance (s : String) : Decidable (recognizedUnit s) := by
  unfold recognizedUnit; infer_instance

theorem convert_ok_of_recognized {s : String} (h : recognizedUnit s) :
    ∃ v, convertIntervalToMs s = Except.ok v := by
  rcases h with h | h | h <;> simp [convertIntervalToMs, h]

theorem convert_error_of_not_recognized {s : String} (h : ¬ recognizedUnit s) :
    ∃ e, convertIntervalToMs s = Except.error e := by
  rw [recognizedUnit] at h
  push_neg at h
  simp [convertIntervalToMs, h.1, h.2.1, h.2.2]

/-! ## The sequential task queue (`TaskQueue`) -/

/-- State of a `TaskQueue`.  `queue` and `isProcessing` are the two fields of
the TypeScript class; the remaining fields are ghost observations of the
run: `current` is the task currently awaited by the drain loop, `started`
the tasks in order of invocation, `finished` the tasks in order of
settlement, `errLog` the tasks whose failure was logged. -/
structure TaskQueue where
  queue : List Nat
  isProcessing : Bool
  current : Option Nat
  started : List Nat
  finished : List Nat
  errLog : List Nat
deriving DecidableEq, Repr

namespace TaskQueue

/-- A freshly constructed, idle queue. -/
def init : TaskQueue :=
  { queue := [], isProcessing := false, current := none
    started := [], finished := [], errLog := [] }

/-- Method `TaskQueue.add(task)`: push the task, then run `processQueue()`.  The
synchronous prefix of `processQueue` (the guard check, setting the flag,
shifting the head and invoking it up to its first `await`) runs within the
same turn, so a single step either only extends the queue (drain already
active) or also starts the head task. -/
def add (q : TaskQueue) (t : Nat) : TaskQueue :=
  let q1 := { q with queue := q.queue ++ [t] }
  if q1.isProcessing then q1
  else
    match q1.queue with
    | [] => { q1 with isProcessing := false }
    | h0 :: rest =>
        { q1 with isProcessing := true, queue := rest
                  current := some h0, started := q1.started ++ [h0] }

/-- The promise awaited by the drain loop settles (successfully iff `ok`).
The `catch` logs a failure; the loop then either shifts and invokes the next
task or, the queue being empty, clears `isProcessing`. -/
def finishCurrent (q : TaskQueue) (ok : Bool) : TaskQueue :=
  match q.current with
  | none => q
  | some t =>
      let q1 := { q with finished := q.finished ++ [t]
                         errLog := if ok then q.errLog else q.errLog ++ [t] }
      match q1.queue with
      | [] => { q1 with current := none, isProcessing := false }
      | h0 :: rest =>
          { q1 with queue := rest, current := some h0
                    started := q1.started ++ [h0] }

/-- External events driving a `TaskQueue`. -/
inductive Event
  | add (t : Nat)
  | finish (ok : Bool)
deriving DecidableEq, Repr

def step (q : TaskQueue) : Event → TaskQueue
  | Event.add t => q.add t
  | Event.finish ok => q.finishCurrent ok

def run (q : TaskQueue) (evs : List Event) : TaskQueue :=
  evs.foldl step q

/-- The tasks enqueued by an event sequence, in order. -/
def addedOf : List Event → List Nat
  | [] => []
  | Event.add t :: rest => t :: addedOf rest
  | Event.finish _ :: rest => addedOf rest

/-- Drain-loop invariant of the queue. -/
def Inv (a : List Nat) (q : TaskQueue) : Prop :=
  q.started ++ q.queue = a ∧
  q.started = q.finished ++ q.current.toList ∧
  (q.isProcessing = true ↔ q.current.isSome) ∧
  (q.isProcessing = false → q.queue = [])

theorem inv_init : Inv [] init := by
  simp [Inv, init]

theorem inv_add {a : List Nat} {q : TaskQueue} (h : Inv a q) (t : Nat) :
    Inv (a ++ [t]) (q.add t) := by
  obtain ⟨h1, h2, h3, h4⟩ := h
  unfold add
  cases hp : q.isProcessing with
  | true =>
      simp only [hp, if_pos]
      exact ⟨by simp [← h1, List.append_assoc], h2, by simpa [hp] using h3, by simp⟩
  | false =>
      have hq : q.queue = [] := h4 hp
      simp only [hp, if_neg]
      simp only [hq, List.nil_append]
      refine ⟨?_, ?_, ?_, ?_⟩
      · simp [← h1, hq]
      · have hc : q.current = none := by
          cases hc : q.current with
          | none => rfl
          | some x => simp [hc, hp] at h3
        simp [h2, hc]
      · simp
      · simp

theorem inv_finish {a : List Nat} {q : TaskQueue} (h : Inv a q) (ok : Bool) :
    Inv a (q.finishCurrent ok) := by
  obtain ⟨h1, h2, h3, h4⟩ := h
  unfold finishCurrent
  cases hc : q.current with
  | none => exact ⟨h1, h2, h3, h4⟩
  | some t =>
      cases hq : q.queue with
      | nil =>
          refine ⟨?_, ?_, ?_, ?_⟩
          · simp [← h1, hq]
          · simp [h2, hc]
          · simp
          · simp
      | cons h0 rest =>
          have hp : q.isProcessing = true := h3.mpr (by simp [hc])
          refine ⟨?_, ?_, ?_, ?_⟩
          · simp [← h1, hq, List.append_assoc]
          · simp [h2, hc, List.append_assoc]
          · simp [hp]
          · simp [hp]

theorem inv_step {a : List Nat} {q : TaskQueue} (h : Inv a q) (e : Event) :
    Inv (a ++ addedOf [e]) (q.step e) := by
  cases e with
  | add t => exact inv_add h t
  | finish ok => simpa [addedOf] using inv_finish h ok

theorem inv_run : ∀ (evs : List Event) {a : List Nat} {q : TaskQueue},
    Inv a q → Inv (a ++ addedOf evs) (q.run evs)
  | [], _, _, h => by simpa [run, addedOf] using h
  | e :: rest, a, q, h => by
      have h1 := inv_step h e
      have h2 := inv_run rest h1
      cases e with
      | add t => simpa [run, step, addedOf, List.append_assoc] using h2
      | finish ok => simpa [run, step, addedOf] using h2

theorem inv_run_init (evs : List Event) : Inv (addedOf evs) (init.run evs) := by
  simpa using inv_run evs inv_init

end TaskQueue

/-! ## The job scheduler (`JobScheduler`) -/

/-- A job descriptor (src/jobs/Job.ts): name and interval token.  The
`execute` body is an opaque asynchronous operation; its settlements are
supplied by the environment as `finish` events of the machine below. -/
structure Job where
  name : String
  interval : String
deriving DecidableEq, Repr

/-- The `ExecutionMode` type (src/jobs/types.ts). -/
inductive ExecutionMode
  | parallel
  | sequential
deriving DecidableEq, Repr

/-- One entry of the scheduler's `timers` array.  `clearInterval` does not
remove the handle from the array, it only disarms it, hence the `cleared`
flag.  `jobIdx` is the position in `jobs` of the job captured by the
`setInterval` callback. -/
structure Timer where
  jobIdx : Nat
  intervalMs : Option Int
  cleared : Bool
deriving DecidableEq, Repr

/-- State of a `JobScheduler` together with the ghost observations of its
run.  `jobs`, `executionMode`, `timers` and `jobStates` are the class
fields (`jobStates` is the insertion-ordered `Map`, modelled as an
association list); `queue`/`isProcessing` are the fields of the embedded
`TaskQueue` of sequential mode, a queued closure being identified by the
index of the job it captures.  `pending` holds the in-flight `execute()`
calls as pairs `(execId, jobIdx)`; `invoked` records each invocation of an
`execute()` body in order, `skips` the ticks dropped by the running guard,
and `errorsLogged` the job names for which an `execute()` error was
logged. -/
structure Config where
  jobs : List Job
  executionMode : ExecutionMode
  timers : List Timer
  jobStates : List (String × Bool)
  queue : List Nat
  isProcessing : Bool
  pending : List (Nat × Nat)
  nextExecId : Nat
  invoked : List Nat
  skips : List Nat
  errorsLogged : List String
deriving DecidableEq, Repr

/-- JavaScript `Map.set`: overwrite the value at an existing key in place,
otherwise append the new entry. -/
def mapSet : List (String × Bool) → String → Bool → List (String × Bool)
  | [], k, v => [(k, v)]
  | p :: rest, k, v => if p.1 = k then (k, v) :: rest else p :: mapSet rest k v

/-- JavaScript `Map.get` as used in the truthiness test
`if (this.jobStates.get(job.name))`: an absent key reads as `false`. -/
def mapGet : List (String × Bool) → String → Bool
  | [], _ => false
  | p :: rest, k => if p.1 = k then p.2 else mapGet rest k

namespace JobScheduler

/-- The constructor: record jobs and mode, initialize every job's flag to
`false` (duplicate names collapse onto one `Map` entry). -/
def new (jobs : List Job) (executionMode : ExecutionMode) : Config :=
  { jobs := jobs
    executionMode := executionMode
    timers := []
    jobStates := jobs.foldl (fun m j => mapSet m j.name false) []
    queue := []
    isProcessing := false
    pending := []
    nextExecId := 0
    invoked := []
    skips := []
    errorsLogged := [] }

/-- The name of the job at index `j` of the scheduler's job array. -/
def jobName (c : Config) (j : Nat) : String :=
  ((c.jobs.get? j).map Job.name).getD ""

/-- Invoke `job.execute()`: the call starts (is recorded in `invoked`) and
its promise becomes pending under a fresh id. -/
def invokeExec (c : Config) (j : Nat) : Config :=
  { c with pending := c.pending ++ [(c.nextExecId, j)]
           invoked := c.invoked ++ [j]
           nextExecId := c.nextExecId + 1 }

/-- Method `JobScheduler.executeJob`, the dispatch routine bound to each timer
tick.  If the job's flag is set the tick is dropped (logged in `skips`);
otherwise the flag is set and the task closure either starts immediately
(parallel mode — the closure runs synchronously up to `await job.execute()`)
or is handed to the task queue (sequential mode — `add` pushes it and the
synchronous prefix of `processQueue` starts the head task unless a drain is
already active). -/
def executeJob (c : Config) (j : Nat) : Config :=
  if mapGet c.jobStates (jobName c j) then
    { c with skips := c.skips ++ [j] }
  else
    let c1 := { c with jobStates := mapSet c.jobStates (jobName c j) true }
    match c1.executionMode with
    | ExecutionMode.parallel => invokeExec c1 j
    | ExecutionMode.sequential =>
        let c2 := { c1 with queue := c1.queue ++ [j] }
        if c2.isProcessing then c2
        else
          match c2.queue with
          | [] => { c2 with isProcessing := false }
          | h0 :: rest =>
              invokeExec { c2 with isProcessing := true, queue := rest } h0

/-- Method `JobScheduler.scheduleJob`: arm a repeating timer for the job at index
`j` and push its handle. -/
def scheduleJob (c : Config) (j : Nat) (intervalMs : Option Int) : Config :=
  { c with timers := c.timers ++ [{ jobIdx := j, intervalMs := intervalMs, cleared := false }] }

/-- The loop body of `start()` over the job array; the `Option String`
result is the error thrown by `convertIntervalToMs`, if any.  On a throw
the loop aborts but the timers already pushed remain. -/
def startAux : Config → Nat → List Job → Config × Option String
  | c, _, [] => (c, none)
  | c, i, job :: rest =>
      match convertIntervalToMs job.interval with
      | Except.error e => (c, some e)
      | Except.ok ms => startAux (scheduleJob c i ms) (i + 1) rest

/-- Method `JobScheduler.start`: arm one repeating timer per job. -/
def start (c : Config) : Config × Option String :=
  startAux c 0 c.jobs

/-- Method `JobScheduler.stop`: `clearInterval` every timer handle (the handles
stay in the array). -/
def stop (c : Config) : Config :=
  { c with timers := c.timers.map (fun t => { t with cleared := true }) }

/-- Method `JobScheduler.getActiveJobs`: the names whose flag is set, in map
insertion order. -/
def getActiveJobs (c : Config) : List String :=
  (c.jobStates.filter (fun p => p.2)).map Prod.fst

/-- The settlement of the in-flight `execute()` call with id `execId`
(successfully iff `ok`).  The task closure's `catch` logs a failure, its
`finally` clears the job's flag; in sequential mode the drain loop then
resumes: it invokes the next queued closure or clears `isProcessing`. -/
def finishExec (c : Config) (execId : Nat) (ok : Bool) : Config :=
  match c.pending.find? (fun p => p.1 == execId) with
  | none => c
  | some (_, j) =>
      let c1 := { c with pending := c.pending.filter (fun p => !(p.1 == execId)) }
      let c2 := if ok then c1
                else { c1 with errorsLogged := c1.errorsLogged ++ [jobName c j] }
      let c3 := { c2 with jobStates := mapSet c2.jobStates (jobName c j) false }
      match c3.executionMode with
      | ExecutionMode.parallel => c3
      | ExecutionMode.sequential =>
          match c3.queue with
          | [] => { c3 with isProcessing := false }
          | h0 :: rest => invokeExec { c3 with queue := rest } h0

/-- External events driving a scheduler: the public calls, a timer firing,
and the settlement of an in-flight `execute()` promise.  Each event is one
non-preemptible turn of the JavaScript event loop. -/
inductive Event
  | start
  | stop
  | tick (timerIdx : Nat)
  | finish (execId : Nat) (ok : Bool)
deriving DecidableEq, Repr

/-- One turn of the event loop.  A tick of a cleared (or nonexistent) timer
does nothing; an armed timer's callback is `executeJob` on the captured
job. -/
def step (c : Config) : Event → Config
  | Event.start => (start c).1
  | Event.stop => stop c
  | Event.tick i =>
      match c.timers.get? i with
      | none => c
      | some t => if t.cleared then c else executeJob c t.jobIdx
  | Event.finish execId ok => finishExec c execId ok

def run (c : Config) (evs : List Event) : Config :=
  evs.foldl step c

end JobScheduler

/-! ## Map lemmas -/

theorem mapGet_mapSet_self (m : List (String × Bool)) (k : String) (v : Bool) :
    mapGet (mapSet m k v) k = v := by
  induction m with
  | nil => simp [mapSet, mapGet]
  | cons p rest ih =>
      by_cases hp : p.1 = k
      · simp [mapSet, mapGet, hp]
      · simp [mapSet, mapGet, hp, ih]

theorem mapGet_mapSet_ne (m : List (String × Bool)) {k k' : String}
    (h : k' ≠ k) (v : Bool) : mapGet (mapSet m k v) k' = mapGet m k' := by
  induction m with
  | nil => simp [mapSet, mapGet, Ne.symm h]
  | cons p rest ih =>
      by_cases hp : p.1 = k
      · simp [mapSet, mapGet, hp, Ne.symm h]
      · simp [mapSet, mapGet, hp, ih]

namespace JobScheduler

/-! ## Scheduler invariant -/

/-- The job indexes whose `execute()` has been dispatch-accepted but has not
yet settled: the in-flight calls plus, in sequential mode, the closures
still waiting in the queue. -/
def inflight (c : Config) : List Nat :=
  c.pending.map Prod.snd ++ c.queue

/-- The reachable-state invariant of the scheduler machine. -/
def SInv (c : Config) : Prop :=
  (∀ j ∈ inflight c, mapGet c.jobStates (jobName c j) = true) ∧
  ((inflight c).map (jobName c)).Nodup ∧
  (c.pending.map Prod.fst).Nodup ∧
  (∀ p ∈ c.pending, p.1 < c.nextExecId) ∧
  (c.executionMode = ExecutionMode.parallel →
    c.queue = [] ∧ c.isProcessing = false) ∧
  (c.executionMode = ExecutionMode.sequential →
    c.pending.length ≤ 1 ∧ (c.isProcessing = true ↔ c.pending ≠ []) ∧
      (c.isProcessing = false → c.queue = []))

theorem sinv_new (jobs : List Job) (mode : ExecutionMode) :
    SInv (new jobs mode) := by
  simp [SInv, new, inflight]

theorem sinv_timers (c : Config) (ts : List Timer) :
    SInv { c with timers := ts } ↔ SInv c :=
  Iff.rfl

theorem sinv_skips (c : Config) (s : List Nat) :
    SInv { c with skips := s } ↔ SInv c :=
  Iff.rfl

/-! ### Branch characterizations of the dispatch and completion routines -/

theorem executeJob_skip {c : Config} {j : Nat}
    (h : mapGet c.jobStates (jobName c j) = true) :
    executeJob c j = { c with skips := c.skips ++ [j] } := by
  simp [executeJob, h]

theorem executeJob_par {c : Config} {j : Nat}
    (hm : c.executionMode = ExecutionMode.parallel)
    (h : mapGet c.jobStates (jobName c j) = false) :
    executeJob c j =
      { c with jobStates := mapSet c.jobStates (jobName c j) true
               pending := c.pending ++ [(c.nextExecId, j)]
               invoked := c.invoked ++ [j]
               nextExecId := c.nextExecId + 1 } := by
  simp [executeJob, h, hm, invokeExec]

theorem executeJob_seq_busy {c : Config} {j : Nat}
    (hm : c.executionMode = ExecutionMode.sequential)
    (h : mapGet c.jobStates (jobName c j) = false)
    (hp : c.isProcessing = true) :
    executeJob c j =
      { c with jobStates := mapSet c.jobStates (jobName c j) true
               queue := c.queue ++ [j] } := by
  simp [executeJob, h, hm, hp]

theorem executeJob_seq_idle {c : Config} {j : Nat}
    (hm : c.executionMode = ExecutionMode.sequential)
    (h : mapGet c.jobStates (jobName c j) = false)
    (hp : c.isProcessing = false) (hq : c.queue = []) :
    executeJob c j =
      { c with jobStates := mapSet c.jobStates (jobName c j) true
               queue := []
               isProcessing := true
               pending := c.pending ++ [(c.nextExecId, j)]
               invoked := c.invoked ++ [j]
               nextExecId := c.nextExecId + 1 } := by
  simp [executeJob, h, hm, hp, hq, invokeExec]

theorem finishExec_none {c : Config} {execId : Nat} {ok : Bool}
    (h : c.pending.find? (fun p => p.1 == execId) = none) :
    finishExec c execId ok = c := by
  simp [finishExec, h]

theorem finishExec_par {c : Config} {execId i0 j : Nat} {ok : Bool}
    (hm : c.executionMode = ExecutionMode.parallel)
    (hfind : c.pending.find? (fun p => p.1 == execId) = some (i0, j)) :
    finishExec c execId ok =
      { c with pending := c.pending.filter (fun p => !(p.1 == execId))
               errorsLogged :=
                 if ok then c.errorsLogged else c.errorsLogged ++ [jobName c j]
               jobStates := mapSet c.jobStates (jobName c j) false } := by
  cases ok <;> simp [finishExec, hfind, hm]

theorem finishExec_seq_empty {c : Config} {execId i0 j : Nat} {ok : Bool}
    (hm : c.executionMode = ExecutionMode.sequential)
    (hfind : c.pending.find? (fun p => p.1 == execId) = some (i0, j))
    (hq : c.queue = []) :
    finishExec c execId ok =
      { c with pending := c.pending.filter (fun p => !(p.1 == execId))
               errorsLogged :=
                 if ok then c.errorsLogged else c.errorsLogged ++ [jobName c j]
               jobStates := mapSet c.jobStates (jobName c j) false
               isProcessing := false } := by
  cases ok <;> simp [finishExec, hfind, hm, hq]

theorem finishExec_seq_cons {c : Config} {execId i0 j h0 : Nat} {rest : List Nat}
    {ok : Bool}
    (hm : c.executionMode = ExecutionMode.sequential)
    (hfind : c.pending.find? (fun p => p.1 == execId) = some (i0, j))
    (hq : c.queue = h0 :: rest) :
    finishExec c execId ok =
      { c with pending :=
                 c.pending.filter (fun p => !(p.1 == execId)) ++ [(c.nextExecId, h0)]
               errorsLogged :=
                 if ok then c.errorsLogged else c.errorsLogged ++ [jobName c j]
               jobStates := mapSet c.jobStates (jobName c j) false
               queue := rest
               invoked := c.invoked ++ [h0]
               nextExecId := c.nextExecId + 1 } := by
  cases ok <;> simp [finishExec, hfind, hm, hq, invokeExec]

theorem startAux_timers_only :
    ∀ (l : List Job) (c : Config) (i : Nat),
      ∃ ts, (startAux c i l).1 = { c with timers := ts }
  | [], c, _ => ⟨c.timers, rfl⟩
  | job :: rest, c, i => by
      unfold startAux
      cases h : convertIntervalToMs job.interval with
      | error e => exact ⟨c.timers, rfl⟩
      | ok ms =>
          obtain ⟨ts, hts⟩ := startAux_timers_only rest (scheduleJob c i ms) (i + 1)
          exact ⟨ts, hts⟩

theorem sinv_executeJob {c : Config} (h : SInv c) (j : Nat) :
    SInv (executeJob c j) := by
  obtain ⟨h1, h2, h3, h4, h5, h6⟩ := h
  by_cases hflag : mapGet c.jobStates (jobName c j) = true
  · rw [executeJob_skip hflag]
    exact (sinv_skips c _).mpr ⟨h1, h2, h3, h4, h5, h6⟩
  · have hflag' : mapGet c.jobStates (jobName c j) = false := by simpa using hflag
    have hnotin : jobName c j ∉ (inflight c).map (jobName c) := by
      intro hmem
      obtain ⟨j', hj', heq⟩ := List.mem_map.mp hmem
      have hh := h1 j' hj'
      rw [heq, hflag'] at hh
      simp at hh
    have hset : ∀ j', j' ∈ inflight c ∨ j' = j →
        mapGet (mapSet c.jobStates (jobName c j) true) (jobName c j') = true := by
      intro j' hj'
      by_cases heq : jobName c j' = jobName c j
      · rw [heq, mapGet_mapSet_self]
      · rw [mapGet_mapSet_ne _ heq]
        rcases hj' with hj' | rfl
        · exact h1 j' hj'
        · exact absurd rfl heq
    cases hmode : c.executionMode with
    | parallel =>
        obtain ⟨hq, hip⟩ := h5 hmode
        rw [executeJob_par hmode hflag']
        have e1 : ∀ j' ∈ (c.pending ++ [(c.nextExecId, j)]).map Prod.snd ++ c.queue,
            mapGet (mapSet c.jobStates (jobName c j) true) (jobName c j') = true := by
          intro j' hj'
          rw [List.map_append] at hj'
          rcases List.mem_append.mp hj' with hj2 | hj2
          · rcases List.mem_append.mp hj2 with hj3 | hj3
            · exact hset j' (Or.inl (List.mem_append.mpr (Or.inl hj3)))
            · exact hset j' (Or.inr (by simpa using hj3))
          · exact hset j' (Or.inl (List.mem_append.mpr (Or.inr hj2)))
        have e2 : (((c.pending ++ [(c.nextExecId, j)]).map Prod.snd ++ c.queue).map
            (jobName c)).Nodup := by
          have hr : (c.pending ++ [(c.nextExecId, j)]).map Prod.snd ++ c.queue
              = inflight c ++ [j] := by
            simp [inflight, hq]
          rw [hr, List.map_append, List.nodup_append]
          refine ⟨h2, List.nodup_singleton _, ?_⟩
          intro a ha hb
          simp only [List.map_singleton, List.mem_singleton] at hb
          subst hb
          exact hnotin ha
        have e3 : ((c.pending ++ [(c.nextExecId, j)]).map Prod.fst).Nodup := by
          rw [List.map_append, List.nodup_append]
          refine ⟨h3, List.nodup_singleton _, ?_⟩
          intro a ha hb
          simp only [List.map_singleton, List.mem_singleton] at hb
          subst hb
          obtain ⟨p, hp, hpeq⟩ := List.mem_map.mp ha
          exact absurd hpeq (Nat.ne_of_lt (h4 p hp))
        have e4 : ∀ p ∈ c.pending ++ [(c.nextExecId, j)], p.1 < c.nextExecId + 1 := by
          intro p hp
          rcases List.mem_append.mp hp with hp' | hp'
          · exact Nat.lt_succ_of_lt (h4 p hp')
          · rcases List.mem_singleton.mp hp' with rfl
            exact Nat.lt_succ_self _
        have e5 : c.executionMode = ExecutionMode.parallel →
            c.queue = [] ∧ c.isProcessing = false := fun _ => ⟨hq, hip⟩
        have e6 : c.executionMode = ExecutionMode.sequential →
            (c.pending ++ [(c.nextExecId, j)]).length ≤ 1 ∧
              (c.isProcessing = true ↔ c.pending ++ [(c.nextExecId, j)] ≠ []) ∧
              (c.isProcessing = false → c.queue = []) :=
          fun habs => ExecutionMode.noConfusion (hmode.symm.trans habs)
        exact ⟨e1, e2, e3, e4, e5, e6⟩
    | sequential =>
        by_cases hp : c.isProcessing = true
        · rw [executeJob_seq_busy hmode hflag' hp]
          have e1 : ∀ j' ∈ c.pending.map Prod.snd ++ (c.queue ++ [j]),
              mapGet (mapSet c.jobStates (jobName c j) true) (jobName c j') = true := by
            intro j' hj'
            rcases List.mem_append.mp hj' with hj2 | hj2
            · exact hset j' (Or.inl (List.mem_append.mpr (Or.inl hj2)))
            · rcases List.mem_append.mp hj2 with hj3 | hj3
              · exact hset j' (Or.inl (List.mem_append.mpr (Or.inr hj3)))
              · exact hset j' (Or.inr (List.mem_singleton.mp hj3))
          have e2 : ((c.pending.map Prod.snd ++ (c.queue ++ [j])).map
              (jobName c)).Nodup := by
            have hr : c.pending.map Prod.snd ++ (c.queue ++ [j])
                = inflight c ++ [j] := by
              simp [inflight]
            rw [hr, List.map_append, List.nodup_append]
            refine ⟨h2, List.nodup_singleton _, ?_⟩
            intro a ha hb
            simp only [List.map_singleton, List.mem_singleton] at hb
            subst hb
            exact hnotin ha
          have e6 : c.executionMode = ExecutionMode.sequential →
              c.pending.length ≤ 1 ∧
                (c.isProcessing = true ↔ c.pending ≠ []) ∧
                (c.isProcessing = false → c.queue ++ [j] = []) :=
            fun _ => ⟨(h6 hmode).1, (h6 hmode).2.1,
              fun hfalse => Bool.noConfusion (hp.symm.trans hfalse)⟩
          exact ⟨e1, e2, h3, h4,
            fun habs => ExecutionMode.noConfusion (hmode.symm.trans habs), e6⟩
        · have hp' : c.isProcessing = false := by simpa using hp
          have hq : c.queue = [] := (h6 hmode).2.2 hp'
          have hpend : c.pending = [] := by
            rcases hpe : c.pending with _ | ⟨p, rest⟩
            · rfl
            · have hh : c.isProcessing = true :=
                (h6 hmode).2.1.mpr (by simp [hpe])
              rw [hp'] at hh
              exact Bool.noConfusion hh
          rw [executeJob_seq_idle hmode hflag' hp' hq]
          have e1 : ∀ j' ∈ (c.pending ++ [(c.nextExecId, j)]).map Prod.snd ++
              ([] : List Nat),
              mapGet (mapSet c.jobStates (jobName c j) true) (jobName c j') = true := by
            intro j' hj'
            rw [hpend] at hj'
            simp only [List.nil_append, List.map_cons, List.map_nil,
              List.append_nil, List.mem_singleton] at hj'
            exact hset j' (Or.inr hj')
          have e2 : (((c.pending ++ [(c.nextExecId, j)]).map Prod.snd ++
              ([] : List Nat)).map (jobName c)).Nodup := by
            simp [hpend]
          have e3 : ((c.pending ++ [(c.nextExecId, j)]).map Prod.fst).Nodup := by
            simp [hpend]
          have e4 : ∀ p ∈ c.pending ++ [(c.nextExecId, j)],
              p.1 < c.nextExecId + 1 := by
            intro p hp2
            rw [hpend] at hp2
            rcases List.mem_singleton.mp (by simpa using hp2) with rfl
            exact Nat.lt_succ_self _
          have e6 : c.executionMode = ExecutionMode.sequential →
              (c.pending ++ [(c.nextExecId, j)]).length ≤ 1 ∧
                ((true : Bool) = true ↔ c.pending ++ [(c.nextExecId, j)] ≠ []) ∧
                ((true : Bool) = false → ([] : List Nat) = []) :=
            fun _ => ⟨by simp [hpend], by simp [hpend], fun _ => rfl⟩
          exact ⟨e1, e2, e3, e4,
            fun habs => ExecutionMode.noConfusion (hmode.symm.trans habs), e6⟩

theorem sinv_finishExec {c : Config} (h : SInv c) (execId : Nat) (ok : Bool) :
    SInv (finishExec c execId ok) := by
  obtain ⟨h1, h2, h3, h4, h5, h6⟩ := h
  cases hfind : c.pending.find? (fun p => p.1 == execId) with
  | none =>
      rw [finishExec_none hfind]
      exact ⟨h1, h2, h3, h4, h5, h6⟩
  | some pr =>
      obtain ⟨i0, j⟩ := pr
      have hmem : (i0, j) ∈ c.pending := List.mem_of_find?_eq_some hfind
      have hidok : (i0 == execId) = true := by
        have hh := List.find?_some hfind
        simpa using hh
      have h2' : (List.map (jobName c) (c.pending.map Prod.snd)).Nodup ∧
          (List.map (jobName c) c.queue).Nodup ∧
          (List.map (jobName c) (c.pending.map Prod.snd)).Disjoint
            (List.map (jobName c) c.queue) := by
        have hh := h2
        rw [inflight, List.map_append, List.nodup_append] at hh
        exact hh
      obtain ⟨d1, d2, disj⟩ := h2'
      have d1' : (c.pending.map (fun p => jobName c p.2)).Nodup := by
        rw [List.map_map] at d1
        exact d1
      have hinj := List.inj_on_of_nodup_map d1'
      have hF : ∀ p' ∈ c.pending.filter (fun p => !(p.1 == execId)),
          jobName c p'.2 ≠ jobName c j := by
        intro p' hp' heq
        have hp'mem : p' ∈ c.pending := (List.mem_filter.mp hp').1
        have hp'pred : (!(p'.1 == execId)) = true := (List.mem_filter.mp hp').2
        have hpe : p' = (i0, j) := hinj hp'mem hmem heq
        rw [hpe] at hp'pred
        simp only [hidok] at hp'pred
        exact Bool.noConfusion hp'pred
      have hG : ∀ j' ∈ c.queue, jobName c j' ≠ jobName c j := by
        intro j' hj' heq
        refine disj ?_ (List.mem_map_of_mem _ hj')
        rw [heq]
        exact List.mem_map_of_mem _ (List.mem_map.mpr ⟨(i0, j), hmem, rfl⟩)
      cases hmode : c.executionMode with
      | parallel =>
          obtain ⟨hq, hip⟩ := h5 hmode
          rw [finishExec_par hmode hfind]
          have e1 : ∀ j' ∈ (c.pending.filter (fun p => !(p.1 == execId))).map Prod.snd
              ++ c.queue,
              mapGet (mapSet c.jobStates (jobName c j) false) (jobName c j') = true := by
            intro j' hj'
            rcases List.mem_append.mp hj' with hj2 | hj2
            · obtain ⟨p', hp', rfl⟩ := List.mem_map.mp hj2
              rw [mapGet_mapSet_ne _ (hF p' hp')]
              exact h1 p'.2 (List.mem_append.mpr
                (Or.inl (List.mem_map_of_mem _ (List.mem_of_mem_filter hp'))))
            · rw [mapGet_mapSet_ne _ (hG j' hj2)]
              exact h1 j' (List.mem_append.mpr (Or.inr hj2))
          have hsub : List.Sublist
              ((c.pending.filter (fun p => !(p.1 == execId))).map Prod.snd
                ++ c.queue)
              (c.pending.map Prod.snd ++ c.queue) :=
            List.Sublist.append_right
              (List.Sublist.map _ (List.filter_sublist _)) _
          have e2 : (((c.pending.filter (fun p => !(p.1 == execId))).map Prod.snd
              ++ c.queue).map (jobName c)).Nodup :=
            List.Nodup.sublist (List.Sublist.map _ hsub) h2
          have e3 : ((c.pending.filter (fun p => !(p.1 == execId))).map
              Prod.fst).Nodup :=
            List.Nodup.sublist (List.Sublist.map _ (List.filter_sublist _)) h3
          have e4 : ∀ p ∈ c.pending.filter (fun p => !(p.1 == execId)),
              p.1 < c.nextExecId :=
            fun p hp => h4 p (List.mem_of_mem_filter hp)
          exact ⟨e1, e2, e3, e4, fun _ => ⟨hq, hip⟩,
            fun habs => ExecutionMode.noConfusion (hmode.symm.trans habs)⟩
      | sequential =>
          have hone : c.pending = [(i0, j)] := by
            have hlen := (h6 hmode).1
            cases hpe : c.pending with
            | nil =>
                rw [hpe] at hmem
                simp at hmem
            | cons p rest =>
                rw [hpe] at hlen hmem
                cases rest with
                | nil =>
                    simp only [List.mem_singleton] at hmem
                    rw [hmem]
                | cons p2 rest2 => simp at hlen
          have hfilter : c.pending.filter (fun p => !(p.1 == execId)) = [] := by
            rw [hone]
            simp [List.filter, hidok]
          have hproc : c.isProcessing = true :=
            (h6 hmode).2.1.mpr (by rw [hone]; simp)
          cases hqe : c.queue with
          | nil =>
              rw [finishExec_seq_empty hmode hfind hqe]
              have e1 : ∀ j' ∈ (c.pending.filter (fun p => !(p.1 == execId))).map
                  Prod.snd ++ c.queue,
                  mapGet (mapSet c.jobStates (jobName c j) false) (jobName c j')
                    = true := by
                intro j' hj'
                rw [hfilter, hqe] at hj'
                simp at hj'
              have e2 : (((c.pending.filter (fun p => !(p.1 == execId))).map
                  Prod.snd ++ c.queue).map (jobName c)).Nodup := by
                rw [hfilter, hqe]
                simp
              have e3 : ((c.pending.filter (fun p => !(p.1 == execId))).map
                  Prod.fst).Nodup := by
                rw [hfilter]
                simp
              have e4 : ∀ p ∈ c.pending.filter (fun p => !(p.1 == execId)),
                  p.1 < c.nextExecId := by
                rw [hfilter]
                simp
              have e6 : c.executionMode = ExecutionMode.sequential →
                  (c.pending.filter (fun p => !(p.1 == execId))).length ≤ 1 ∧
                    ((false : Bool) = true ↔
                      c.pending.filter (fun p => !(p.1 == execId)) ≠ []) ∧
                    ((false : Bool) = false → c.queue = []) := by
                intro _
                refine ⟨by rw [hfilter]; simp, by rw [hfilter]; simp, fun _ => hqe⟩
              exact ⟨e1, e2, e3, e4,
                fun habs => ExecutionMode.noConfusion (hmode.symm.trans habs), e6⟩
          | cons h0 rest =>
              rw [finishExec_seq_cons hmode hfind hqe]
              have e1 : ∀ j' ∈ (c.pending.filter (fun p => !(p.1 == execId))
                  ++ [(c.nextExecId, h0)]).map Prod.snd ++ rest,
                  mapGet (mapSet c.jobStates (jobName c j) false) (jobName c j')
                    = true := by
                intro j' hj'
                have hj'' : j' ∈ c.queue := by
                  rw [hfilter] at hj'
                  simp only [List.nil_append, List.map_cons, List.map_nil,
                    List.cons_append, List.mem_cons] at hj'
                  rcases hj' with rfl | hj'
                  · rw [hqe]
                    exact List.mem_cons_self _ _
                  · rw [hqe]
                    exact List.mem_cons_of_mem _ (by simpa using hj')
                rw [mapGet_mapSet_ne _ (hG j' hj'')]
                exact h1 j' (List.mem_append.mpr (Or.inr hj''))
              have e2 : (((c.pending.filter (fun p => !(p.1 == execId))
                  ++ [(c.nextExecId, h0)]).map Prod.snd ++ rest).map
                  (jobName c)).Nodup := by
                have hr : (c.pending.filter (fun p => !(p.1 == execId))
                    ++ [(c.nextExecId, h0)]).map Prod.snd ++ rest = c.queue := by
                  rw [hfilter, hqe]
                  simp
                rw [hr]
                exact d2
              have e3 : ((c.pending.filter (fun p => !(p.1 == execId))
                  ++ [(c.nextExecId, h0)]).map Prod.fst).Nodup := by
                rw [hfilter]
                simp
              have e4 : ∀ p ∈ c.pending.filter (fun p => !(p.1 == execId))
                  ++ [(c.nextExecId, h0)], p.1 < c.nextExecId + 1 := by
                rw [hfilter]
                simp
              have e6 : c.executionMode = ExecutionMode.sequential →
                  (c.pending.filter (fun p => !(p.1 == execId))
                    ++ [(c.nextExecId, h0)]).length ≤ 1 ∧
                  (c.isProcessing = true ↔
                    c.pending.filter (fun p => !(p.1 == execId))
                      ++ [(c.nextExecId, h0)] ≠ []) ∧
                  (c.isProcessing = false → rest = []) := by
                intro _
                refine ⟨by rw [hfilter]; simp, by rw [hfilter, hproc]; simp, ?_⟩
                intro hfalse
                exact Bool.noConfusion (hproc.symm.trans hfalse)
              exact ⟨e1, e2, e3, e4,
                fun habs => ExecutionMode.noConfusion (hmode.symm.trans habs), e6⟩

/-! ### Field constancy -/

theorem executeJob_jobs (c : Config) (j : Nat) : (executeJob c j).jobs = c.jobs := by
  unfold executeJob invokeExec
  dsimp only
  repeat' split
  all_goals rfl

theorem executeJob_mode (c : Config) (j : Nat) :
    (executeJob c j).executionMode = c.executionMode := by
  unfold executeJob invokeExec
  dsimp only
  repeat' split
  all_goals rfl

theorem executeJob_timers (c : Config) (j : Nat) :
    (executeJob c j).timers = c.timers := by
  unfold executeJob invokeExec
  dsimp only
  repeat' split
  all_goals rfl

theorem finishExec_jobs (c : Config) (i : Nat) (ok : Bool) :
    (finishExec c i ok).jobs = c.jobs := by
  unfold finishExec invokeExec
  dsimp only
  repeat' split
  all_goals rfl

theorem finishExec_mode (c : Config) (i : Nat) (ok : Bool) :
    (finishExec c i ok).executionMode = c.executionMode := by
  unfold finishExec invokeExec
  dsimp only
  repeat' split
  all_goals rfl

theorem finishExec_timers (c : Config) (i : Nat) (ok : Bool) :
    (finishExec c i ok).timers = c.timers := by
  unfold finishExec invokeExec
  dsimp only
  repeat' split
  all_goals rfl

theorem step_jobs (c : Config) (e : Event) : (step c e).jobs = c.jobs := by
  cases e with
  | start =>
      obtain ⟨ts, hts⟩ := startAux_timers_only c.jobs c 0
      show (startAux c 0 c.jobs).1.jobs = c.jobs
      rw [hts]
  | stop => rfl
  | tick i =>
      show (match c.timers.get? i with
        | none => c
        | some t => if t.cleared then c else executeJob c t.jobIdx).jobs = c.jobs
      cases hg : c.timers.get? i with
      | none => rfl
      | some t =>
          show (if t.cleared = true then c else executeJob c t.jobIdx).jobs = c.jobs
          by_cases ht : t.cleared = true
          · rw [if_pos ht]
          · rw [if_neg ht]
            exact executeJob_jobs c t.jobIdx
  | finish i ok => exact finishExec_jobs c i ok

theorem step_mode (c : Config) (e : Event) :
    (step c e).executionMode = c.executionMode := by
  cases e with
  | start =>
      obtain ⟨ts, hts⟩ := startAux_timers_only c.jobs c 0
      show (startAux c 0 c.jobs).1.executionMode = c.executionMode
      rw [hts]
  | stop => rfl
  | tick i =>
      show (match c.timers.get? i with
        | none => c
        | some t => if t.cleared then c else executeJob c t.jobIdx).executionMode
        = c.executionMode
      cases hg : c.timers.get? i with
      | none => rfl
      | some t =>
          show (if t.cleared = true then c
            else executeJob c t.jobIdx).executionMode = c.executionMode
          by_cases ht : t.cleared = true
          · rw [if_pos ht]
          · rw [if_neg ht]
            exact executeJob_mode c t.jobIdx
  | finish i ok => exact finishExec_mode c i ok

theorem run_jobs (evs : List Event) : ∀ c : Config, (run c evs).jobs = c.jobs := by
  induction evs with
  | nil => intro c; rfl
  | cons e rest ih =>
      intro c
      show (run (step c e) rest).jobs = c.jobs
      rw [ih (step c e), step_jobs]

theorem run_mode (evs : List Event) : ∀ c : Config,
    (run c evs).executionMode = c.executionMode := by
  induction evs with
  | nil => intro c; rfl
  | cons e rest ih =>
      intro c
      show (run (step c e) rest).executionMode = c.executionMode
      rw [ih (step c e), step_mode]

/-! ### Invariance along every run -/

theorem sinv_stop {c : Config} (h : SInv c) : SInv (stop c) :=
  (sinv_timers c _).mpr h

theorem sinv_start {c : Config} (h : SInv c) : SInv (start c).1 := by
  obtain ⟨ts, hts⟩ := startAux_timers_only c.jobs c 0
  show SInv (startAux c 0 c.jobs).1
  rw [hts]
  exact (sinv_timers c ts).mpr h

theorem sinv_step {c : Config} (h : SInv c) (e : Event) : SInv (step c e) := by
  cases e with
  | start => exact sinv_start h
  | stop => exact sinv_stop h
  | tick i =>
      show SInv (match c.timers.get? i with
        | none => c
        | some t => if t.cleared then c else executeJob c t.jobIdx)
      cases hg : c.timers.get? i with
      | none => exact h
      | some t =>
          show SInv (if t.cleared = true then c else executeJob c t.jobIdx)
          by_cases ht : t.cleared = true
          · rw [if_pos ht]
            exact h
          · rw [if_neg ht]
            exact sinv_executeJob h t.jobIdx
  | finish i ok => exact sinv_finishExec h i ok

theorem sinv_run : ∀ (evs : List Event) {c : Config}, SInv c → SInv (run c evs)
  | [], _, h => h
  | e :: rest, c, h => sinv_run rest (sinv_step h e)

theorem sinv_reachable (jobs : List Job) (mode : ExecutionMode)
    (evs : List Event) : SInv (run (new jobs mode) evs) :=
  sinv_run evs (sinv_new jobs mode)

/-! ### Auxiliary facts about `start` and `stop` -/

theorem stop_all_cleared (c : Config) : ∀ t ∈ (stop c).timers, t.cleared = true := by
  intro t ht
  obtain ⟨t0, _, rfl⟩ := List.mem_map.mp ht
  rfl

theorem find?_eq_of_nodup_keys {l : List (Nat × Nat)}
    (h : (l.map Prod.fst).Nodup) {i j : Nat} (hm : (i, j) ∈ l) :
    l.find? (fun p => p.1 == i) = some (i, j) := by
  induction l with
  | nil => simp at hm
  | cons p rest ih =>
      rcases List.mem_cons.mp hm with rfl | hm'
      · simp
      · have h' : (p.1 :: rest.map Prod.fst).Nodup := by simpa using h
        have hnd := List.nodup_cons.mp h'
        have hp : ¬ ((p.1 == i) = true) := by
          intro hpe
          have hpe' : p.1 = i := by simpa using hpe
          have hin : i ∈ rest.map Prod.fst := List.mem_map.mpr ⟨(i, j), hm', rfl⟩
          exact hnd.1 (hpe' ▸ hin)
        have hres : List.find? (fun q => q.1 == i) (p :: rest)
            = List.find? (fun q => q.1 == i) rest :=
          List.find?_cons_of_neg rest hp
        rw [hres]
        exact ih hnd.2 hm'

theorem startAux_ok :
    ∀ (l : List Job) (c : Config) (i : Nat),
      (∀ j ∈ l, recognizedUnit j.interval) →
      (startAux c i l).1.timers.length = c.timers.length + l.length ∧
      (startAux c i l).1.jobs = c.jobs ∧
      (startAux c i l).2 = none
  | [], c, i, _ => ⟨rfl, rfl, rfl⟩
  | job :: rest, c, i, h => by
      obtain ⟨ms, hms⟩ := convert_ok_of_recognized (h job (List.mem_cons_self _ _))
      have ih := startAux_ok rest (scheduleJob c i ms) (i + 1)
        (fun j hj => h j (List.mem_cons_of_mem _ hj))
      have hstep : startAux c i (job :: rest)
          = startAux (scheduleJob c i ms) (i + 1) rest := by
        show (match convertIntervalToMs job.interval with
          | Except.error e => (c, some e)
          | Except.ok ms2 => startAux (scheduleJob c i ms2) (i + 1) rest)
            = startAux (scheduleJob c i ms) (i + 1) rest
        rw [hms]
      rw [hstep]
      refine ⟨?_, ?_, ih.2.2⟩
      · rw [ih.1]
        simp only [scheduleJob, List.length_append, List.length_cons,
          List.length_nil]
        omega
      · rw [ih.2.1]
        rfl

theorem start_ok (c : Config) (h : ∀ j ∈ c.jobs, recognizedUnit j.interval) :
    (start c).1.timers.length = c.timers.length + c.jobs.length ∧
    (start c).1.jobs = c.jobs ∧ (start c).2 = none :=
  startAux_ok c.jobs c 0 h

theorem startAux_aborting :
    ∀ (l : List Job) (c : Config) (i k : Nat),
      k < l.length →
      (∀ m j, m < k → l.get? m = some j → recognizedUnit j.interval) →
      (∀ j, l.get? k = some j → ¬ recognizedUnit j.interval) →
      (startAux c i l).2.isSome = true ∧
      (startAux c i l).1.timers.length = c.timers.length + k ∧
      (∀ t ∈ c.timers, t ∈ (startAux c i l).1.timers) ∧
      (∀ t ∈ (startAux c i l).1.timers,
        t ∈ c.timers ∨ (i ≤ t.jobIdx ∧ t.jobIdx < i + k ∧ t.cleared = false)) ∧
      (∀ m, m < k →
        ∃ t ∈ (startAux c i l).1.timers, t.jobIdx = i + m ∧ t.cleared = false) := by
  intro l
  induction l with
  | nil =>
      intro c i k hk _ _
      simp at hk
  | cons job rest ih =>
      intro c i k hk hgood hbad
      cases k with
      | zero =>
          have hb : ¬ recognizedUnit job.interval := hbad job rfl
          obtain ⟨e, he⟩ := convert_error_of_not_recognized hb
          have hstep : startAux c i (job :: rest) = (c, some e) := by
            show (match convertIntervalToMs job.interval with
              | Except.error e => (c, some e)
              | Except.ok ms2 => startAux (scheduleJob c i ms2) (i + 1) rest)
                = (c, some e)
            rw [he]
          rw [hstep]
          exact ⟨rfl, rfl, fun t ht => ht, fun t ht => Or.inl ht,
            fun m hm => absurd hm (Nat.not_lt_zero m)⟩
      | succ k' =>
          have hg0 : recognizedUnit job.interval :=
            hgood 0 job (Nat.succ_pos k') rfl
          obtain ⟨ms, hms⟩ := convert_ok_of_recognized hg0
          have hk' : k' < rest.length := by
            simpa using Nat.lt_of_succ_lt_succ hk
          have hgood' : ∀ m j, m < k' → rest.get? m = some j →
              recognizedUnit j.interval :=
            fun m j hm hget => hgood (m + 1) j (Nat.succ_lt_succ hm) hget
          have hbad' : ∀ j, rest.get? k' = some j → ¬ recognizedUnit j.interval :=
            fun j hget => hbad j hget
          have ihh := ih (scheduleJob c i ms) (i + 1) k' hk' hgood' hbad'
          have hstep : startAux c i (job :: rest)
              = startAux (scheduleJob c i ms) (i + 1) rest := by
            show (match convertIntervalToMs job.interval with
              | Except.error e => (c, some e)
              | Except.ok ms2 => startAux (scheduleJob c i ms2) (i + 1) rest)
                = startAux (scheduleJob c i ms) (i + 1) rest
            rw [hms]
          rw [hstep]
          obtain ⟨ih1, ih2, ih3, ih4, ih5⟩ := ihh
          refine ⟨ih1, ?_, ?_, ?_, ?_⟩
          · rw [ih2]
            simp only [scheduleJob, List.length_append, List.length_cons,
              List.length_nil]
            omega
          · intro t ht
            exact ih3 t (List.mem_append.mpr (Or.inl ht))
          · intro t ht
            rcases ih4 t ht with hin | hbd
            · rcases List.mem_append.mp hin with hin' | hin'
              · exact Or.inl hin'
              · rcases List.mem_singleton.mp hin' with rfl
                exact Or.inr ⟨Nat.le_refl i, by show i < i + (k' + 1); omega, rfl⟩
            · exact Or.inr ⟨Nat.le_of_succ_le hbd.1, by omega, hbd.2.2⟩
          · intro m hm
            cases m with
            | zero =>
                refine ⟨{ jobIdx := i, intervalMs := ms, cleared := false },
                  ?_, by simp, rfl⟩
                exact ih3 _ (List.mem_append.mpr (Or.inr (List.mem_singleton.mpr rfl)))
            | succ m' =>
                obtain ⟨t, htmem, htidx, htcl⟩ := ih5 m' (Nat.lt_of_succ_lt_succ hm)
                exact ⟨t, htmem, by omega, htcl⟩

end JobScheduler

/-! ## Claims -/

/-- C5: the interval parser maps `"1m"` to 60000, `"5m"` to 300000, `"15m"`
to 900000, `"1h"` to 3600000, `"4h"` to 14400000 and `"1d"` to 86400000
milliseconds; for any interval token whose last character is not `'m'`,
`'h'` or `'d'` it throws synchronously (no default, no retry). -/
theorem interval_conversion :
    convertIntervalToMs "1m" = Except.ok (some 60000) ∧
    convertIntervalToMs "5m" = Except.ok (some 300000) ∧
    convertIntervalToMs "15m" = Except.ok (some 900000) ∧
    convertIntervalToMs "1h" = Except.ok (some 3600000) ∧
    convertIntervalToMs "4h" = Except.ok (some 14400000) ∧
    convertIntervalToMs "1d" = Except.ok (some 86400000) ∧
    (∀ s : String,
      s.toList.getLast? ≠ some 'm' →
      s.toList.getLast? ≠ some 'h' →
      s.toList.getLast? ≠ some 'd' →
      ∃ e, convertIntervalToMs s = Except.error e) := by
  refine ⟨by rfl, by rfl, by rfl, by rfl, by rfl, by rfl, ?_⟩
  intro s hm hh hd
  apply convert_error_of_not_recognized
  intro hrec
  unfold recognizedUnit intervalUnit at hrec
  cases hg : s.toList.getLast? with
  | none =>
      rw [hg] at hrec
      rcases hrec with h' | h' | h' <;>
        exact absurd (show ("" : String) = _ from h') (by decide)
  | some u =>
      rw [hg] at hrec
      rcases hrec with h' | h' | h'
      · have hs : String.singleton u = "m" := h'
        have hu : u = 'm' := by
          have h2 := congrArg String.data hs
          simpa [String.singleton] using h2
        exact hm (hu ▸ hg)
      · have hs : String.singleton u = "h" := h'
        have hu : u = 'h' := by
          have h2 := congrArg String.data hs
          simpa [String.singleton] using h2
        exact hh (hu ▸ hg)
      · have hs : String.singleton u = "d" := h'
        have hu : u = 'd' := by
          have h2 := congrArg String.data hs
          simpa [String.singleton] using h2
        exact hd (hu ▸ hg)

theorem interval_conversion_witness :
    ∃ e, convertIntervalToMs "2x" = Except.error e :=
  interval_conversion.2.2.2.2.2.2 "2x" (by decide) (by decide) (by decide)

namespace JobScheduler

/-- The §8 overlap-suppression scenario: a scheduler with the single job
`"job1"`, started, with `n` ticks of its timer fired while its `execute()`
promise is still pending. -/
def overlapScenario (n : Nat) : Config :=
  run (new [{ name := "job1", interval := "1m" }] ExecutionMode.parallel)
    (Event.start :: List.replicate n (Event.tick 0))

/-- C1: a tick arriving while the job's flag is `true` never invokes
`execute()` and leaves the flag untouched (only the skip notice is logged);
in the single-job scenario, two consecutive ticks with `execute()` pending
produce exactly one invocation, `getActiveJobs()` reports the job
throughout, and is empty once the pending `execute()` resolves. -/
theorem overlap_suppression :
    (∀ (c : Config) (j : Nat), mapGet c.jobStates (jobName c j) = true →
      executeJob c j = { c with skips := c.skips ++ [j] }) ∧
    (overlapScenario 1).invoked = [0] ∧
    getActiveJobs (overlapScenario 1) = ["job1"] ∧
    (overlapScenario 2).invoked = [0] ∧
    getActiveJobs (overlapScenario 2) = ["job1"] ∧
    (step (overlapScenario 2) (Event.finish 0 true)).invoked = [0] ∧
    getActiveJobs (step (overlapScenario 2) (Event.finish 0 true)) = [] := by
  refine ⟨?_, by rfl, by rfl, by rfl, by rfl, by rfl, by rfl⟩
  intro c j h
  exact executeJob_skip h

theorem overlap_suppression_witness :
    executeJob (overlapScenario 1) 0
      = { overlapScenario 1 with skips := (overlapScenario 1).skips ++ [0] } :=
  overlap_suppression.1 (overlapScenario 1) 0 (by decide)

/-- Iterated `start()`: called `k` times in a row (no `stop()` in between). -/
def startN (c : Config) : Nat → Config
  | 0 => c
  | Nat.succ k => startN (start c).1 k

theorem startN_timers_length :
    ∀ (k : Nat) (c : Config), (∀ j ∈ c.jobs, recognizedUnit j.interval) →
      (startN c k).timers.length = c.timers.length + k * c.jobs.length := by
  intro k
  induction k with
  | zero => intro c _; simp [startN]
  | succ k ih =>
      intro c h
      obtain ⟨hlen, hjobs, _⟩ := start_ok c h
      have hstep : startN c (k + 1) = startN (start c).1 k := rfl
      rw [hstep, ih (start c).1 (by rw [hjobs]; exact h), hlen, hjobs,
        Nat.succ_mul]
      omega

/-- C8: calling `start()` `k` times without an intervening `stop()` on a
scheduler with `n` jobs arms `k * n` repeating timers in total; nothing
detects or suppresses the duplicate arming. -/
theorem start_arms_duplicate_timers :
    ∀ (jobs : List Job) (mode : ExecutionMode) (k : Nat),
      (∀ j ∈ jobs, recognizedUnit j.interval) →
      (startN (new jobs mode) k).timers.length = k * jobs.length := by
  intro jobs mode k h
  have hh := startN_timers_length k (new jobs mode) h
  simpa [new] using hh

theorem start_arms_duplicate_timers_witness :
    (startN (new [{ name := "a", interval := "1m" },
      { name := "b", interval := "4h" }] ExecutionMode.parallel) 3).timers.length
      = 3 * 2 :=
  start_arms_duplicate_timers _ ExecutionMode.parallel 3 (by decide)

/-- C9: two distinct jobs sharing one name share a single state-table entry:
the constructor leaves one map entry, and while the first job is `Running`
a dispatch of the second is dropped exactly like a repeated tick of the
first — its `execute()` is never invoked. -/
theorem duplicate_names_mask_overlap :
    ∀ (j1 j2 : Job) (mode : ExecutionMode), j1.name = j2.name →
      (new [j1, j2] mode).jobStates = [(j1.name, false)] ∧
      mapGet (executeJob (new [j1, j2] mode) 0).jobStates
        (jobName (executeJob (new [j1, j2] mode) 0) 1) = true ∧
      executeJob (executeJob (new [j1, j2] mode) 0) 1
        = { executeJob (new [j1, j2] mode) 0 with
            skips := (executeJob (new [j1, j2] mode) 0).skips ++ [1] } := by
  intro j1 j2 mode hname
  have hstates : (new [j1, j2] mode).jobStates = [(j1.name, false)] := by
    simp [new, mapSet, hname]
  have hjn0 : jobName (new [j1, j2] mode) 0 = j1.name := by
    simp [jobName, new]
  have hflag0 : mapGet (new [j1, j2] mode).jobStates
      (jobName (new [j1, j2] mode) 0) = false := by
    rw [hstates, hjn0]
    simp [mapGet]
  have hc1states : (executeJob (new [j1, j2] mode) 0).jobStates
      = mapSet (new [j1, j2] mode).jobStates
          (jobName (new [j1, j2] mode) 0) true := by
    cases mode with
    | parallel => rw [executeJob_par rfl hflag0]
    | sequential => rw [executeJob_seq_idle rfl hflag0 rfl rfl]
  have hjn1 : jobName (executeJob (new [j1, j2] mode) 0) 1 = j2.name := by
    rw [jobName, executeJob_jobs]
    simp [new]
  have hflag1 : mapGet (executeJob (new [j1, j2] mode) 0).jobStates
      (jobName (executeJob (new [j1, j2] mode) 0) 1) = true := by
    rw [hc1states, hjn1, hstates, hjn0, ← hname, mapGet_mapSet_self]
  exact ⟨hstates, hflag1, executeJob_skip hflag1⟩

theorem duplicate_names_mask_overlap_witness :
    (new [{ name := "a", interval := "1m" }, { name := "a", interval := "5m" }]
      ExecutionMode.parallel).jobStates = [("a", false)] :=
  (duplicate_names_mask_overlap { name := "a", interval := "1m" }
    { name := "a", interval := "5m" } ExecutionMode.parallel rfl).1

/-- C10: `start()` is not atomic on configuration error.  If the job at
0-based index `k` has an unrecognized interval unit while all earlier jobs
parse, `start()` throws, yet armed (uncleared) timers for exactly the jobs
at indexes `0..k-1` are already recorded in the timer list — so a later
`stop()` cancels them — and no timer exists for index `k` or later. -/
theorem start_nonatomic_on_error :
    ∀ (jobs : List Job) (mode : ExecutionMode) (k : Nat),
      k < jobs.length →
      (∀ m j, m < k → jobs.get? m = some j → recognizedUnit j.interval) →
      (∀ j, jobs.get? k = some j → ¬ recognizedUnit j.interval) →
      (start (new jobs mode)).2.isSome = true ∧
      (start (new jobs mode)).1.timers.length = k ∧
      (∀ t ∈ (start (new jobs mode)).1.timers,
        t.jobIdx < k ∧ t.cleared = false) ∧
      (∀ m, m < k →
        ∃ t ∈ (start (new jobs mode)).1.timers, t.jobIdx = m) ∧
      (∀ t ∈ (stop (start (new jobs mode)).1).timers, t.cleared = true) := by
  intro jobs mode k hk hgood hbad
  have hp := startAux_aborting jobs (new jobs mode) 0 k hk hgood hbad
  obtain ⟨hp1, hp2, _, hp4, hp5⟩ := hp
  refine ⟨hp1, ?_, ?_, ?_, stop_all_cleared _⟩
  · rw [show (start (new jobs mode)).1.timers.length
      = (new jobs mode).timers.length + k from hp2]
    simp [new]
  · intro t ht
    rcases hp4 t ht with hin | hbd
    · exact absurd hin (by simp [new])
    · exact ⟨by omega, hbd.2.2⟩
  · intro m hm
    obtain ⟨t, htm, hidx, _⟩ := hp5 m hm
    exact ⟨t, htm, by omega⟩

theorem start_nonatomic_on_error_witness :
    (start (new [{ name := "a", interval := "1m" },
      { name := "b", interval := "5x" },
      { name := "c", interval := "1h" }] ExecutionMode.parallel)).2.isSome
        = true ∧
    (start (new [{ name := "a", interval := "1m" },
      { name := "b", interval := "5x" },
      { name := "c", interval := "1h" }]
        ExecutionMode.parallel)).1.timers.length = 1 := by
  have hh := start_nonatomic_on_error
    [{ name := "a", interval := "1m" }, { name := "b", interval := "5x" },
      { name := "c", interval := "1h" }] ExecutionMode.parallel 1
    (by decide)
    (fun m j hm hget => by
      have hm0 : m = 0 := by omega
      subst hm0
      have hj : j = { name := "a", interval := "1m" } := by
        simp at hget
        exact hget.symm
      subst hj
      decide)
    (fun j hget => by
      have hj : j = { name := "b", interval := "5x" } := by
        simp at hget
        exact hget.symm
      subst hj
      decide)
  exact ⟨hh.1, hh.2.1⟩

end JobScheduler

/-- C2: any sequence of `add`/settlement events on an initially idle
`TaskQueue` starts tasks in exactly the order they were added (the started
prefix plus the still-queued suffix is the enqueue order), a task starts
only after every previously started task has settled (`current` is the only
started-but-unsettled task), and once the queue is empty with nothing
running, every added task has run exactly once, in insertion order. -/
theorem taskqueue_fifo_exactly_once :
    ∀ evs : List TaskQueue.Event,
      (TaskQueue.init.run evs).started ++ (TaskQueue.init.run evs).queue
        = TaskQueue.addedOf evs ∧
      (TaskQueue.init.run evs).started
        = (TaskQueue.init.run evs).finished
          ++ (TaskQueue.init.run evs).current.toList ∧
      ((TaskQueue.init.run evs).queue = [] →
        (TaskQueue.init.run evs).current = none →
        (TaskQueue.init.run evs).started = TaskQueue.addedOf evs ∧
        (TaskQueue.init.run evs).finished = TaskQueue.addedOf evs) := by
  intro evs
  obtain ⟨h1, h2, _, _⟩ := TaskQueue.inv_run_init evs
  refine ⟨h1, h2, ?_⟩
  intro hq hc
  have hs : (TaskQueue.init.run evs).started = TaskQueue.addedOf evs := by
    rw [← h1, hq, List.append_nil]
  exact ⟨hs, by rw [← hs, h2, hc]; simp⟩

theorem taskqueue_fifo_exactly_once_witness :
    (TaskQueue.init.run [TaskQueue.Event.add 7, TaskQueue.Event.add 8,
      TaskQueue.Event.finish true, TaskQueue.Event.finish false]).started
      = TaskQueue.addedOf [TaskQueue.Event.add 7, TaskQueue.Event.add 8,
        TaskQueue.Event.finish true, TaskQueue.Event.finish false] ∧
    (TaskQueue.init.run [TaskQueue.Event.add 7, TaskQueue.Event.add 8,
      TaskQueue.Event.finish true, TaskQueue.Event.finish false]).finished
      = TaskQueue.addedOf [TaskQueue.Event.add 7, TaskQueue.Event.add 8,
        TaskQueue.Event.finish true, TaskQueue.Event.finish false] :=
  (taskqueue_fifo_exactly_once [TaskQueue.Event.add 7, TaskQueue.Event.add 8,
    TaskQueue.Event.finish true, TaskQueue.Event.finish false]).2.2
    (by rfl) (by rfl)

/-- C7: a failing task never halts the drain and never surfaces to the
caller of `add`: on failure the task is logged in `errLog` and the next
pending task starts at once (or the drain closes cleanly on an empty
queue); and the `isProcessing` guard keeps a second drain from starting —
an `add` during an active drain only appends to the pending sequence. -/
theorem taskqueue_error_isolation :
    (∀ (q : TaskQueue) (t : Nat), q.isProcessing = true →
      q.add t = { q with queue := q.queue ++ [t] }) ∧
    (∀ (q : TaskQueue) (t h0 : Nat) (rest : List Nat),
      q.current = some t → q.queue = h0 :: rest →
      q.finishCurrent false
        = { q with finished := q.finished ++ [t]
                   errLog := q.errLog ++ [t]
                   queue := rest
                   current := some h0
                   started := q.started ++ [h0] }) ∧
    (∀ (q : TaskQueue) (t : Nat), q.current = some t → q.queue = [] →
      q.finishCurrent false
        = { q with finished := q.finished ++ [t]
                   errLog := q.errLog ++ [t]
                   current := none
                   isProcessing := false }) := by
  refine ⟨?_, ?_, ?_⟩
  · intro q t hp
    simp [TaskQueue.add, hp]
  · intro q t h0 rest hc hq
    simp [TaskQueue.finishCurrent, hc, hq]
  · intro q t hc hq
    simp [TaskQueue.finishCurrent, hc, hq]

namespace JobScheduler

/-- C3: in every reachable scheduler state, every job index whose dispatch
has been accepted but whose `execute()` call has not yet settled — an
in-flight call, or in sequential mode a closure still waiting in the shared
queue — has its state flag set to `true`. -/
theorem running_flag_invariant :
    ∀ (jobs : List Job) (mode : ExecutionMode) (evs : List Event) (j : Nat),
      j ∈ inflight (run (new jobs mode) evs) →
      mapGet (run (new jobs mode) evs).jobStates
        (jobName (run (new jobs mode) evs) j) = true :=
  fun jobs mode evs j hj => (sinv_reachable jobs mode evs).1 j hj

theorem running_flag_invariant_witness :
    mapGet (run (new [{ name := "a", interval := "1m" },
        { name := "b", interval := "1m" }] ExecutionMode.sequential)
        [Event.start, Event.tick 0, Event.tick 1]).jobStates
      (jobName (run (new [{ name := "a", interval := "1m" },
        { name := "b", interval := "1m" }] ExecutionMode.sequential)
        [Event.start, Event.tick 0, Event.tick 1]) 1) = true :=
  running_flag_invariant _ ExecutionMode.sequential
    [Event.start, Event.tick 0, Event.tick 1] 1 (by decide)

/-- In any state satisfying the invariant, the settlement of an in-flight
`execute()` call clears the job's flag regardless of outcome, logs the
error exactly on failure, and leaves the job dispatchable again: the next
`executeJob` for it is not dropped, and in parallel mode it invokes
`execute()` again at once. -/
theorem finish_behavior {c : Config} (hS : SInv c) {execId j : Nat} (ok : Bool)
    (hmem : (execId, j) ∈ c.pending) :
    mapGet (finishExec c execId ok).jobStates (jobName c j) = false ∧
    (ok = false → (finishExec c execId ok).errorsLogged
      = c.errorsLogged ++ [jobName c j]) ∧
    (executeJob (finishExec c execId ok) j).skips
      = (finishExec c execId ok).skips ∧
    (c.executionMode = ExecutionMode.parallel →
      (executeJob (finishExec c execId ok) j).invoked
        = (finishExec c execId ok).invoked ++ [j]) := by
  obtain ⟨h1, h2, h3, h4, h5, h6⟩ := hS
  have hfind : c.pending.find? (fun p => p.1 == execId) = some (execId, j) :=
    find?_eq_of_nodup_keys h3 hmem
  have key : (finishExec c execId ok).jobStates
      = mapSet c.jobStates (jobName c j) false ∧
      (finishExec c execId ok).errorsLogged
        = (if ok then c.errorsLogged else c.errorsLogged ++ [jobName c j]) := by
    cases hmode : c.executionMode with
    | parallel =>
        rw [finishExec_par hmode hfind]
        exact ⟨rfl, rfl⟩
    | sequential =>
        cases hqe : c.queue with
        | nil =>
            rw [finishExec_seq_empty hmode hfind hqe]
            exact ⟨rfl, rfl⟩
        | cons h0 rest =>
            rw [finishExec_seq_cons hmode hfind hqe]
            exact ⟨rfl, rfl⟩
  have hflagafter : mapGet (finishExec c execId ok).jobStates (jobName c j)
      = false := by
    rw [key.1, mapGet_mapSet_self]
  have hjn : jobName (finishExec c execId ok) j = jobName c j := by
    rw [jobName, jobName, finishExec_jobs]
  have hflag' : mapGet (finishExec c execId ok).jobStates
      (jobName (finishExec c execId ok) j) = false := by
    rw [hjn]
    exact hflagafter
  have hS' : SInv (finishExec c execId ok) :=
    sinv_finishExec ⟨h1, h2, h3, h4, h5, h6⟩ execId ok
  refine ⟨hflagafter, ?_, ?_, ?_⟩
  · intro hok
    rw [key.2, hok]
    simp
  · cases hmode' : (finishExec c execId ok).executionMode with
    | parallel => rw [executeJob_par hmode' hflag']
    | sequential =>
        by_cases hip : (finishExec c execId ok).isProcessing = true
        · rw [executeJob_seq_busy hmode' hflag' hip]
        · have hip' : (finishExec c execId ok).isProcessing = false := by
            simpa using hip
          have hq' : (finishExec c execId ok).queue = [] :=
            (hS'.2.2.2.2.2 hmode').2.2 hip'
          rw [executeJob_seq_idle hmode' hflag' hip' hq']
  · intro hpar
    have hmode'' : (finishExec c execId ok).executionMode
        = ExecutionMode.parallel := by
      rw [finishExec_mode]
      exact hpar
    rw [executeJob_par hmode'' hflag']

/-- C4: on settlement of a job's `execute()` — resolution or rejection — the
flag is reset to `false` unconditionally by the `finally` cleanup; a
rejection is logged with the job's name and never escapes (the machine's
transition is total — the next queued task still starts, see
`finish_behavior`); and a subsequent dispatch of the job is accepted again
(in parallel mode it re-invokes `execute()` immediately). -/
theorem completion_resets_flag :
    ∀ (jobs : List Job) (mode : ExecutionMode) (evs : List Event)
      (execId j : Nat) (ok : Bool),
      (execId, j) ∈ (run (new jobs mode) evs).pending →
      mapGet (finishExec (run (new jobs mode) evs) execId ok).jobStates
        (jobName (run (new jobs mode) evs) j) = false ∧
      (ok = false →
        (finishExec (run (new jobs mode) evs) execId ok).errorsLogged
          = (run (new jobs mode) evs).errorsLogged
            ++ [jobName (run (new jobs mode) evs) j]) ∧
      (executeJob (finishExec (run (new jobs mode) evs) execId ok) j).skips
        = (finishExec (run (new jobs mode) evs) execId ok).skips ∧
      (mode = ExecutionMode.parallel →
        (executeJob (finishExec (run (new jobs mode) evs) execId ok) j).invoked
          = (finishExec (run (new jobs mode) evs) execId ok).invoked ++ [j]) :=
  fun jobs mode evs execId j ok hmem =>
    have hb := finish_behavior (sinv_reachable jobs mode evs) ok hmem
    ⟨hb.1, hb.2.1, hb.2.2.1,
      fun hpar => hb.2.2.2 (by rw [run_mode]; exact hpar)⟩

theorem completion_resets_flag_witness :
    mapGet (finishExec (run (new [{ name := "a", interval := "1m" }]
        ExecutionMode.parallel) [Event.start, Event.tick 0]) 0 false).jobStates
      (jobName (run (new [{ name := "a", interval := "1m" }]
        ExecutionMode.parallel) [Event.start, Event.tick 0]) 0) = false :=
  (completion_resets_flag [{ name := "a", interval := "1m" }]
    ExecutionMode.parallel [Event.start, Event.tick 0] 0 0 false (by decide)).1

theorem finishExec_stop (c : Config) (execId : Nat) (ok : Bool) :
    finishExec (stop c) execId ok = stop (finishExec c execId ok) := by
  cases hfind : c.pending.find? (fun p => p.1 == execId) with
  | none =>
      rw [show finishExec (stop c) execId ok = stop c from finishExec_none hfind,
        finishExec_none hfind]
  | some pr =>
      obtain ⟨i0, j⟩ := pr
      cases hmode : c.executionMode with
      | parallel =>
          rw [@finishExec_par (stop c) execId i0 j ok hmode hfind,
            finishExec_par hmode hfind]
          rfl
      | sequential =>
          cases hqe : c.queue with
          | nil =>
              rw [@finishExec_seq_empty (stop c) execId i0 j ok hmode hfind hqe,
                finishExec_seq_empty hmode hfind hqe]
              rfl
          | cons h0 rest =>
              rw [@finishExec_seq_cons (stop c) execId i0 j h0 rest ok
                  hmode hfind hqe,
                finishExec_seq_cons hmode hfind hqe]
              rfl

/-- C6: after `stop()` every timer handle is cleared, so a tick of any timer
is a no-op — no dispatch ever again; `stop()` leaves the pending calls, the
queue and the flags untouched, and a settlement after `stop()` behaves
exactly as it would have without the `stop()` (the flag still clears
normally): stopping and settling commute. -/
theorem stop_halts_future_ticks :
    (∀ (c : Config) (i : Nat), step (stop c) (Event.tick i) = stop c) ∧
    (∀ (c : Config) (execId : Nat) (ok : Bool),
      step (stop c) (Event.finish execId ok)
        = stop (step c (Event.finish execId ok))) ∧
    (∀ c : Config, (stop c).pending = c.pending ∧ (stop c).queue = c.queue ∧
      (stop c).jobStates = c.jobStates) ∧
    (∀ c : Config, ∀ t ∈ (stop c).timers, t.cleared = true) := by
  refine ⟨?_, ?_, fun c => ⟨rfl, rfl, rfl⟩, fun c => stop_all_cleared c⟩
  · intro c i
    show (match (stop c).timers.get? i with
      | none => stop c
      | some t => if t.cleared then stop c
          else executeJob (stop c) t.jobIdx) = stop c
    cases hg : c.timers.get? i with
    | none =>
        have hg' : (stop c).timers.get? i = none := by
          show (c.timers.map _).get? i = none
          rw [List.get?_map, hg]
          rfl
        rw [hg']
    | some t =>
        have hg' : (stop c).timers.get? i
            = some { jobIdx := t.jobIdx, intervalMs := t.intervalMs,
                     cleared := true } := by
          show (c.timers.map _).get? i = _
          rw [List.get?_map, hg]
          rfl
        rw [hg']
        rfl
  · intro c execId ok
    exact finishExec_stop c execId ok

theorem stop_halts_future_ticks_witness :
    step (stop (run (new [{ name := "a", interval := "1m" }]
        ExecutionMode.parallel) [Event.start])) (Event.tick 0)
      = stop (run (new [{ name := "a", interval := "1m" }]
        ExecutionMode.parallel) [Event.start]) ∧
    ({ jobIdx := 0, intervalMs := some 60000, cleared := true } : Timer).cleared
      = true :=
  ⟨stop_halts_future_ticks.1 _ 0,
    stop_halts_future_ticks.2.2.2
      (run (new [{ name := "a", interval := "1m" }] ExecutionMode.parallel)
        [Event.start]) _ (by decide)⟩

end JobScheduler

theorem taskqueue_error_isolation_witness :
    TaskQueue.finishCurrent
      { queue := [5], isProcessing := true, current := some 4,
        started := [4], finished := [], errLog := [] } false
      = { queue := [], isProcessing := true, current := some 5,
          started := [4, 5], finished := [4], errLog := [4] } :=
  taskqueue_error_isolation.2.1
    { queue := [5], isProcessing := true, current := some 4,
      started := [4], finished := [], errLog := [] } 4 5 [] rfl rfl

end Modktx
